import Mathlib

/-!
Verification of the heuristic resolution engine of the google-meet-api-sample
repository.  The definitions below are a shallow embedding of the engine code
in `src/lib/google-meet-api.ts` and of the calendar/transcript engine embedded
in `src/README.md`: filename normalization, meeting-code extraction, calendar
correlation scoring, transcript search deduplication and assembly, relevance
ranking, content fetching, and transcript parsing.

Modelling conventions:
- JavaScript strings are Lean `String`s; character-level work happens on
  `String.data : List Char`.  `String.prototype.includes` becomes infix
  search on character lists; `toLowerCase` is ASCII lowercasing (all inputs
  of interest are ASCII or Japanese text, which JS lowercasing leaves
  unchanged as well).
- Timestamps are modelled by the integer epoch milliseconds a successful
  `new Date(s).getTime()` yields; optional string fields whose only use is
  truthiness-plus-parse become `Option Int`.
- Heuristic scores are exact rationals (the JS arithmetic involved — sums,
  one division by a constant, `Math.max` — is exact on the magnitudes used).
- Network calls (Drive content download / Docs export) are `Except`-valued
  function parameters; a thrown error is the `.error` case.
- The regular expressions of the source are compiled by hand into scanning
  matchers with JavaScript's leftmost-match, ordered-alternation, greedy-
  with-backtracking semantics, specialised to the concrete patterns.
-/

namespace MeetApi

/-- The JavaScript `\s` (whitespace) character class. -/
def jsSpace (c : Char) : Bool :=
  c == ' ' || c == '\t' || c == '\n' || c == '\r' || c == '\x0b' || c == '\x0c' ||
  c == '\u00A0' || c == '\u1680' ||
  (0x2000 ≤ c.toNat && c.toNat ≤ 0x200A) ||
  c == '\u2028' || c == '\u2029' || c == '\u202F' || c == '\u205F' ||
  c == '\u3000' || c == '\uFEFF'

/-- JavaScript line terminators: the characters `.` never matches. -/
def isLineTerm (c : Char) : Bool :=
  c == '\n' || c == '\r' || c == '\u2028' || c == '\u2029'

/-- `a.includes(b)` of JavaScript: `b` occurs as a contiguous substring of `a`. -/
def jsIncludes (a b : String) : Bool :=
  decide (b.data <:+: a.data)

/-- `s.toLowerCase()` restricted to ASCII case mapping. -/
def lowerStr (s : String) : String :=
  String.mk (s.data.map Char.toLower)

/-- Truthiness of an optional JS string: present and nonempty. -/
def optTruthy : Option String → Bool
  | none => false
  | some s => s != ""

/-- `String.prototype.trim` on a character list: strip `\s` from both ends. -/
def jsTrimL (l : List Char) : List Char :=
  ((l.dropWhile jsSpace).reverse.dropWhile jsSpace).reverse

/-- Collapse every maximal run of `\s` characters to one plain space
(`replace(/\s+/g, " ")`).  The flag records being inside a run. -/
def collapseWsGo : Bool → List Char → List Char
  | _, [] => []
  | inRun, c :: r =>
    if jsSpace c then
      if inRun then collapseWsGo true r else ' ' :: collapseWsGo true r
    else c :: collapseWsGo false r

def collapseWs (l : List Char) : List Char :=
  collapseWsGo false l

/-- Split a character list at every maximal run of separator characters,
the way `String.prototype.split` with a `/[...]+/` regex does (runs at the
ends produce empty fragments).  `acc` holds the current fragment reversed. -/
def splitRunsGo (p : Char → Bool) : List Char → List Char → List (List Char)
  | [], acc => [acc.reverse]
  | c :: rest, acc =>
    if p c then acc.reverse :: splitRunsGo p (rest.dropWhile p) []
    else splitRunsGo p rest (c :: acc)
termination_by l _ => l.length
decreasing_by
  · simp only [List.length_cons]
    have hsuf : rest.dropWhile p <:+ rest := List.dropWhile_suffix p
    have := hsuf.length_le
    omega
  · simp [List.length_cons]

def splitRuns (p : Char → Bool) (l : List Char) : List (List Char) :=
  splitRunsGo p l []


/-! ## Name normalizers (`generateMeetingName`, `extractBaseName`,
`extractMeetingBaseName`) -/

/-- The extension alternatives of `generateMeetingName`'s
`replace(/\.(mp4|webm|txt|doc|docx)$/i, "")`: if the (case-insensitively)
matched suffix exists, its length including the dot, else `none`.  A `$`
anchored alternation matches at most one of these suffixes. -/
def extSuffixG (l : List Char) : Option Nat :=
  let low := l.map Char.toLower
  if decide (".mp4".data <:+ low) then some 4
  else if decide (".webm".data <:+ low) then some 5
  else if decide (".txt".data <:+ low) then some 4
  else if decide (".docx".data <:+ low) then some 5
  else if decide (".doc".data <:+ low) then some 4
  else none

def stripExtG (l : List Char) : List Char :=
  match extSuffixG l with
  | some n => l.take (l.length - n)
  | none => l

/-- The leading-keyword alternation of
`replace(/^(Meeting|Google Meet|Meet)[\s\-_]*/i, "")`: the length of the
first alternative that matches at the start, in the regex's order. -/
def headKwG (l : List Char) : Option Nat :=
  let low := l.map Char.toLower
  if decide ("meeting".data <+: low) then some 7
  else if decide ("google meet".data <+: low) then some 11
  else if decide ("meet".data <+: low) then some 4
  else none

def spaceDash (c : Char) : Bool :=
  jsSpace c || c == '-' || c == '_'

def stripHeadG (l : List Char) : List Char :=
  match headKwG l with
  | some n => (l.drop n).dropWhile spaceDash
  | none => l

/-- `replace(/[\-_]/g, " ")`. -/
def dashToSpace (l : List Char) : List Char :=
  l.map fun c => if c == '-' || c == '_' then ' ' else c

/-- `generateMeetingName` of `src/lib/google-meet-api.ts` (and the copy in the
README engine): strip one recognised extension, strip one leading boilerplate
keyword with its separator run, turn hyphens/underscores into spaces, trim,
and fall back to "Google Meet 会議" when the result is empty. -/
def generateMeetingName (fileName : String) : String :=
  let cleanName := jsTrimL (dashToSpace (stripHeadG (stripExtG fileName.data)))
  if cleanName = [] then "Google Meet 会議" else String.mk cleanName

/-- Extension alternation of `extractBaseName` / `extractMeetingBaseName`'s
final `replace(/\.(…)$/i, "")` steps, parameterised by the suffix list
(each entry with its dot). -/
def extSuffixOf (alts : List String) (l : List Char) : Option Nat :=
  let low := l.map Char.toLower
  match alts.find? (fun a => decide (a.data <:+ low)) with
  | some a => some a.data.length
  | none => none

def stripExtOf (alts : List String) (l : List Char) : List Char :=
  match extSuffixOf alts l with
  | some n => l.take (l.length - n)
  | none => l

/-- Leading keyword alternation of `extractBaseName`:
`/^(Meeting|Google Meet|Meet|Recording)[\s\-_]*/i`. -/
def headKwB (l : List Char) : Option Nat :=
  let low := l.map Char.toLower
  if decide ("meeting".data <+: low) then some 7
  else if decide ("google meet".data <+: low) then some 11
  else if decide ("meet".data <+: low) then some 4
  else if decide ("recording".data <+: low) then some 9
  else none

/-- Collapse every maximal run of `[\s\-_]+` to one plain space
(`replace(/[\s\-_]+/g, " ")`). -/
def collapseSpaceDashGo : Bool → List Char → List Char
  | _, [] => []
  | inRun, c :: r =>
    if spaceDash c then
      if inRun then collapseSpaceDashGo true r else ' ' :: collapseSpaceDashGo true r
    else c :: collapseSpaceDashGo false r

/-- `extractBaseName` of `src/lib/google-meet-api.ts`: strip one extension,
strip one leading keyword, collapse separator runs to spaces, keep the first
space-separated word, trim. -/
def extractBaseName (fileName : String) : String :=
  let step := collapseSpaceDashGo false
    (match headKwB (stripExtOf [".mp4", ".webm", ".txt", ".doc", ".docx", ".pdf"] fileName.data) with
     | some n => ((stripExtOf [".mp4", ".webm", ".txt", ".doc", ".docx", ".pdf"] fileName.data).drop n).dropWhile spaceDash
     | none => stripExtOf [".mp4", ".webm", ".txt", ".doc", ".docx", ".pdf"] fileName.data)
  String.mk (jsTrimL (step.takeWhile (fun c => c != ' ')))

/-! ### The date pattern of `extractMeetingBaseName`

`replace(/\d{4}\/\d{1,2}\/\d{1,2}\s+\d{1,2}:\d{2}\s+JST/g, "")`.  The regex
engine's backtracking is compiled away: every `\d{1,2}` is followed by a
non-digit requirement (`/`, `\s`, `:`), so "try two digits, else one" is the
whole search; every `\s+` is followed by a non-space requirement, so greedy
consumption is exact. -/

def parseDigitsN : Nat → List Char → Option (List Char)
  | 0, l => some l
  | n + 1, c :: r => if c.isDigit then parseDigitsN n r else none
  | _ + 1, [] => none

/-- Consume one or two digits then hand the rest to `k`, preferring two
(greedy `\d{1,2}`). -/
def parseD12 (k : List Char → Option (List Char)) (l : List Char) : Option (List Char) :=
  match l with
  | a :: b :: r =>
    if a.isDigit && b.isDigit then
      match k r with
      | some out => some out
      | none => if a.isDigit then k (b :: r) else none
    else if a.isDigit then k (b :: r) else none
  | [a] => if a.isDigit then k [] else none
  | [] => none

/-- Consume one or more `\s` characters then hand the rest to `k`. -/
def parseWs1 (k : List Char → Option (List Char)) (l : List Char) : Option (List Char) :=
  match l with
  | c :: r => if jsSpace c then k ((c :: r).dropWhile jsSpace) else none
  | [] => none

def expectChar (c : Char) (k : List Char → Option (List Char)) (l : List Char) :
    Option (List Char) :=
  match l with
  | d :: r => if d == c then k r else none
  | [] => none

/-- Match the date pattern at the head of `l`; on success return the rest of
the list after the match. -/
def dateMatchAt (l : List Char) : Option (List Char) :=
  match parseDigitsN 4 l with
  | none => none
  | some r1 =>
    expectChar '/'
      (parseD12 (expectChar '/'
        (parseD12 (parseWs1
          (parseD12 (expectChar ':'
            (fun r => match parseDigitsN 2 r with
              | none => none
              | some r2 => parseWs1
                  (expectChar 'J' (expectChar 'S' (expectChar 'T' some))) r2))))))) r1

/-- One global-replace pass: scan left to right; at a match, emit nothing and
resume scanning after the matched text (JavaScript `lastIndex` semantics —
the freshly created junction is not rescanned).  Fuel is the remaining length;
each step consumes at least one character. -/
def removeDatesFuel : Nat → List Char → List Char
  | 0, l => l
  | fuel + 1, l =>
    match dateMatchAt l with
    | some r => removeDatesFuel fuel r
    | none =>
      match l with
      | [] => []
      | c :: rest => c :: removeDatesFuel fuel rest

def removeDates (l : List Char) : List Char :=
  removeDatesFuel l.length l

/-- Head match for `/～(Chat|Recording|Gemini によるメモ).*$/`: the marker, one
alternative, and a tail free of line terminators (so `.*` reaches `$`). -/
def artifactHeadMatch (l : List Char) : Bool :=
  match l with
  | c :: r =>
    c == '～' &&
    ((decide ("Chat".data <+: r) && (r.drop 4).all (fun d => !isLineTerm d)) ||
     (decide ("Recording".data <+: r) && (r.drop 9).all (fun d => !isLineTerm d)) ||
     (decide ("Gemini によるメモ".data <+: r) &&
       (r.drop "Gemini によるメモ".data.length).all (fun d => !isLineTerm d)))
  | [] => false

/-- `replace(/～(Chat|Recording|Gemini によるメモ).*$/g, "")`: cut at the
leftmost position where the artifact marker matches through to the end. -/
def artifactCut : List Char → List Char
  | [] => []
  | c :: r => if artifactHeadMatch (c :: r) then [] else c :: artifactCut r

/-- Head match for `/\s+のコピー.*$/`: one or more spaces (greedy: the run is
followed by a non-space literal), the copy marker, terminator-free tail. -/
def copyHeadMatch (l : List Char) : Bool :=
  match l with
  | c :: r =>
    jsSpace c &&
    (let after := (c :: r).dropWhile jsSpace
     decide ("のコピー".data <+: after) &&
       (after.drop "のコピー".data.length).all (fun d => !isLineTerm d))
  | [] => false

def copyCut : List Char → List Char
  | [] => []
  | c :: r => if copyHeadMatch (c :: r) then [] else c :: copyCut r

/-- `extractMeetingBaseName` of the README engine: remove embedded date/time
stamps, cut artifact-type and copy suffixes, strip one document extension,
collapse whitespace, trim. -/
def extractMeetingBaseName (fileName : String) : String :=
  String.mk (jsTrimL (collapseWs (stripExtOf [".pdf", ".docx", ".doc", ".txt"]
    (copyCut (artifactCut (removeDates fileName.data))))))


/-! ## Similarity scorer (`countCommonWords`) -/

/-- Word separator class of `split(/[\s\/\-_]+/)`. -/
def wordSep (c : Char) : Bool :=
  jsSpace c || c == '/' || c == '-' || c == '_'

/-- `word.match(/^[\d\-_\/]+$/)`: nonempty and made only of digits and
`-`, `_`, `/`. -/
def numLike (w : List Char) : Bool :=
  !w.isEmpty && w.all (fun c => c.isDigit || c == '-' || c == '_' || c == '/')

/-- The meaningful words of a string: split on separator runs, keep words
longer than one character that are not `numLike`. -/
def meaningfulWords (s : List Char) : List (List Char) :=
  (splitRuns wordSep s).filter (fun w => decide (1 < w.length) && !numLike w)

/-- One word-pair comparison of `countCommonWords`: containment either way,
or (for words over two characters) containment of the other's first three
characters. -/
def wordsMatch (w1 w2 : List Char) : Bool :=
  decide (w2 <:+: w1) || decide (w1 <:+: w2) ||
  (decide (2 < w1.length) && decide (2 < w2.length) &&
    (decide (w2.take 3 <:+: w1) || decide (w1.take 3 <:+: w2)))

/-- `countCommonWords` of the README engine: how many meaningful words of
`str1` match some meaningful word of `str2`. -/
def countCommonWords (str1 str2 : String) : Nat :=
  ((meaningfulWords str1.data).filter
    (fun w1 => (meaningfulWords str2.data).any (fun w2 => wordsMatch w1 w2))).length

/-! ## Calendar data model and correlator -/

/-- One `conferenceData.entryPoints` element (the fields the engine reads). -/
structure EntryPoint where
  entryPointType : String
  uri : Option String
deriving DecidableEq

structure ConferenceData where
  entryPoints : Option (List EntryPoint)
deriving DecidableEq

/-- A calendar event snapshot: the fields `findMatchingCalendarEvent`,
`hasGoogleMeetLink` and `extractMeetLinkFromEvent` read.  `startDateTime`
is `event.start?.dateTime` as parsed epoch milliseconds. -/
structure CalEvent where
  id : String
  summary : Option String
  description : Option String
  startDateTime : Option Int
  conferenceData : Option ConferenceData
deriving DecidableEq

/-- A meeting record (the `Meeting` interface of the library): `createdTime`
as parsed epoch milliseconds. -/
structure Meeting where
  id : String
  name : String
  createdTime : Int
  modifiedTime : Option Int
  size : Option Int
  meetingCode : Option String
deriving DecidableEq

/-- `hasGoogleMeetLink`: a video entry point whose URI mentions
`meet.google.com`, or a (truthy) description mentioning it. -/
def hasGoogleMeetLink (e : CalEvent) : Bool :=
  (match e.conferenceData with
   | some cd =>
     match cd.entryPoints with
     | some eps => eps.any (fun p =>
         p.entryPointType == "video" &&
         (match p.uri with
          | some u => jsIncludes u "meet.google.com"
          | none => false))
     | none => false
   | none => false) ||
  (match e.description with
   | some d => d != "" && jsIncludes d "meet.google.com"
   | none => false)

/-- Scoring step 1 of `findMatchingCalendarEvent`: +100 when the meeting's
code occurs in the event description (both fields truthy). -/
def codeScore (m : Meeting) (e : CalEvent) : ℚ :=
  if optTruthy m.meetingCode && optTruthy e.description then
    (if jsIncludes (e.description.getD "") (m.meetingCode.getD "") then 100 else 0)
  else 0

/-- Scoring step 2: time proximity, `max(0, 50 - 5*hoursDiff)` when the event
has a start time within six hours of the meeting's creation. -/
def timeScore (m : Meeting) (e : CalEvent) : ℚ :=
  match e.startDateTime with
  | some t =>
    let hoursDiff : ℚ := ((t - m.createdTime).natAbs : ℚ) / 3600000
    if hoursDiff ≤ 6 then max 0 (50 - hoursDiff * 5) else 0
  | none => 0

/-- Scoring step 3: name similarity between the event summary and the cleaned
meeting name — exact 80, containment 60, else 10 per common word. -/
def nameScore (cleanMeetingName : String) (e : CalEvent) : ℚ :=
  if optTruthy e.summary && cleanMeetingName != "" then
    let eventName := lowerStr (e.summary.getD "")
    let meetingNameLower := lowerStr cleanMeetingName
    if eventName = meetingNameLower then 80
    else if jsIncludes eventName meetingNameLower || jsIncludes meetingNameLower eventName then 60
    else
      let commonWords := countCommonWords meetingNameLower eventName
      if 0 < commonWords then (commonWords : ℚ) * 10 else 0
  else 0

/-- Scoring step 4: +10 for a detectable Google Meet link. -/
def linkScore (e : CalEvent) : ℚ :=
  if hasGoogleMeetLink e then 10 else 0

/-- The whole additive match score of one candidate event. -/
def eventScore (m : Meeting) (cleanMeetingName : String) (e : CalEvent) : ℚ :=
  codeScore m e + timeScore m e + nameScore cleanMeetingName e + linkScore e

/-- The candidate loop of `findMatchingCalendarEvent`: a candidate scoring at
least 30 is a logged "potential" match, and the first one scoring at least 50
is returned. -/
def findMatchLoop (m : Meeting) (cleanMeetingName : String) : List CalEvent → Option CalEvent
  | [] => none
  | e :: rest =>
    let matchScore := eventScore m cleanMeetingName e
    if 30 ≤ matchScore then
      if 50 ≤ matchScore then some e else findMatchLoop m cleanMeetingName rest
    else findMatchLoop m cleanMeetingName rest

/-- `findMatchingCalendarEvent` of the README engine. -/
def findMatchingCalendarEvent (m : Meeting) (events : List CalEvent) : Option CalEvent :=
  findMatchLoop m (extractMeetingBaseName m.name) events

/-- The enrichment pass of `enrichMeetingsWithCalendarData`: filter the
calendar snapshot down to events with a Google Meet link, then attach to each
meeting the event `findMatchingCalendarEvent` selects (the projection of the
attached event into the `calendarEvent` record field is out of scope; the
pair keeps the attachment itself). -/
def enrichMeetingsWithCalendarData (meetings : List Meeting) (events : List CalEvent) :
    List (Meeting × Option CalEvent) :=
  let meetEvents := events.filter (fun e => hasGoogleMeetLink e)
  meetings.map (fun m => (m, findMatchingCalendarEvent m meetEvents))

/-! ## Code extractor (`extractMeetingCode`) -/

/-- Scan for the leftmost position where the head matcher `p` succeeds
(JavaScript `String.prototype.match` without `g`: positions are tried left to
right, including the end-of-string position). -/
def scanFirst (p : List Char → Option (List Char)) : List Char → Option (List Char)
  | [] => p []
  | c :: r =>
    match p (c :: r) with
    | some x => some x
    | none => scanFirst p r

/-- ASCII letter, as `/[a-z]/i` matches. -/
def asciiAlpha (c : Char) : Bool :=
  c.isAlpha

/-- The shape `[a-z]{3}-[a-z]{4}-[a-z]{3}` (case-insensitive), twelve
characters long. -/
def shapedCode (l : List Char) : Bool :=
  match l with
  | [a, b, c, d, e, f, g, h, i, j, k, m] =>
    asciiAlpha a && asciiAlpha b && asciiAlpha c && d == '-' &&
    asciiAlpha e && asciiAlpha f && asciiAlpha g && asciiAlpha h && i == '-' &&
    asciiAlpha j && asciiAlpha k && asciiAlpha m
  | _ => false

/-- Pattern 1 at a position: `/([a-z]{3}-[a-z]{4}-[a-z]{3})/i` — the capture
is the twelve-character token itself. -/
def codeHeadMatch (l : List Char) : Option (List Char) :=
  if shapedCode (l.take 12) then some (l.take 12) else none

/-- Characters of the capture class `[a-z\-]` under `/i`. -/
def urlCodeChar (c : Char) : Bool :=
  asciiAlpha c || c == '-'

/-- Pattern 2 at a position: `/meet\.google\.com\/([a-z\-]+)/i` — the literal
prefix case-insensitively, then a nonempty greedy capture. -/
def urlHeadMatch (l : List Char) : Option (List Char) :=
  if (l.take 16).map Char.toLower = "meet.google.com/".data then
    let run := (l.drop 16).takeWhile urlCodeChar
    if run.isEmpty then none else some run
  else none

/-- Characters of the capture class `[A-Z0-9\-]` under `/i`. -/
def labelCodeChar (c : Char) : Bool :=
  asciiAlpha c || c.isDigit || c == '-'

/-- Pattern 3 at a position: `/Meeting\s+([A-Z0-9\-]+)/i`. -/
def labelHeadMatch (l : List Char) : Option (List Char) :=
  if (l.take 7).map Char.toLower = "meeting".data then
    match l.drop 7 with
    | c :: r =>
      if jsSpace c then
        let run := ((c :: r).dropWhile jsSpace).takeWhile labelCodeChar
        if run.isEmpty then none else some run
      else none
    | [] => none
  else none

/-- `extractMeetingCode` of `src/lib/google-meet-api.ts`: try the three
patterns in order, return the first capture found. -/
def extractMeetingCode (fileName : String) : Option String :=
  match scanFirst codeHeadMatch fileName.data with
  | some c => some (String.mk c)
  | none =>
    match scanFirst urlHeadMatch fileName.data with
    | some c => some (String.mk c)
    | none =>
      match scanFirst labelHeadMatch fileName.data with
      | some c => some (String.mk c)
      | none => none


/-! ## Facts about the correlator score and loop -/

lemma codeScore_nonneg (m : Meeting) (e : CalEvent) : 0 ≤ codeScore m e := by
  unfold codeScore
  repeat' split
  all_goals positivity

lemma timeScore_nonneg (m : Meeting) (e : CalEvent) : 0 ≤ timeScore m e := by
  unfold timeScore
  repeat' split
  all_goals positivity

lemma nameScore_nonneg (cn : String) (e : CalEvent) : 0 ≤ nameScore cn e := by
  unfold nameScore
  repeat' split
  all_goals positivity

lemma linkScore_nonneg (e : CalEvent) : 0 ≤ linkScore e := by
  unfold linkScore
  split
  all_goals positivity

/-- The nonempty-substring fact behind the truthiness guards: a string with a
nonempty substring is itself nonempty. -/
lemma ne_empty_of_jsIncludes {c d : String} (h : jsIncludes d c = true) (hc : c ≠ "") :
    d ≠ "" := by
  simp only [jsIncludes, decide_eq_true_eq] at h
  intro hd
  subst hd
  rw [show ("" : String).data = [] from rfl, List.infix_nil] at h
  exact hc (String.ext h)

/-- A code match alone puts the score at 100. -/
lemma codeScore_of_match {m : Meeting} {e : CalEvent} {c d : String}
    (hcode : m.meetingCode = some c) (hc : c ≠ "")
    (hdesc : e.description = some d) (hinc : jsIncludes d c = true) :
    codeScore m e = 100 := by
  have hd : d ≠ "" := ne_empty_of_jsIncludes hinc hc
  simp only [codeScore, hcode, hdesc, optTruthy, Option.getD_some]
  rw [if_pos, if_pos hinc]
  simp [hc, hd]

lemma fifty_le_eventScore_of_code {m : Meeting} {e : CalEvent} {c d cn : String}
    (hcode : m.meetingCode = some c) (hc : c ≠ "")
    (hdesc : e.description = some d) (hinc : jsIncludes d c = true) :
    50 ≤ eventScore m cn e := by
  have h100 := codeScore_of_match hcode hc hdesc hinc
  have h1 := timeScore_nonneg m e
  have h2 := nameScore_nonneg cn e
  have h3 := linkScore_nonneg e
  unfold eventScore
  rw [h100]
  linarith

/-- The candidate loop returns exactly the first candidate scoring at least
50 (the ≥ 30 branch only logs). -/
lemma findMatchLoop_eq_find (m : Meeting) (cn : String) :
    ∀ l : List CalEvent,
      findMatchLoop m cn l = l.find? (fun e => decide (50 ≤ eventScore m cn e))
  | [] => rfl
  | e :: rest => by
    simp only [findMatchLoop]
    by_cases h50 : 50 ≤ eventScore m cn e
    · have h30 : (30 : ℚ) ≤ eventScore m cn e := le_trans (by norm_num) h50
      rw [if_pos h30, if_pos h50, List.find?_cons_of_pos _ (by simpa using h50)]
    · rw [List.find?_cons_of_neg _ (by simpa using h50)]
      by_cases h30 : (30 : ℚ) ≤ eventScore m cn e
      · rw [if_pos h30, if_neg h50, findMatchLoop_eq_find m cn rest]
      · rw [if_neg h30, findMatchLoop_eq_find m cn rest]

lemma findMatchingCalendarEvent_eq_find (m : Meeting) (events : List CalEvent) :
    findMatchingCalendarEvent m events =
      events.find? (fun e => decide (50 ≤ eventScore m (extractMeetingBaseName m.name) e)) :=
  findMatchLoop_eq_find m (extractMeetingBaseName m.name) events

/-! ## Claim theorems -/

/-- C1.  Calendar Correlator contract: `findMatchingCalendarEvent` returns the
first event in list order whose additive score (code substring +100, time
proximity `max(0, 50 - 5*hoursDiff)` when within six hours, exact
normalized-name equality +80 / containment +60 / +10 per common word,
detectable Meet link +10 — `eventScore`) reaches at least 50; it returns
`none` exactly when no event's score reaches 50, so candidates scoring in
`[30, 50)` are logged but never selected. -/
theorem correlator_first_sufficient (m : Meeting) (events : List CalEvent) :
    findMatchingCalendarEvent m events =
      events.find? (fun e => decide (50 ≤ eventScore m (extractMeetingBaseName m.name) e)) ∧
    (findMatchingCalendarEvent m events = none ↔
      ∀ e ∈ events, eventScore m (extractMeetingBaseName m.name) e < 50) ∧
    (∀ e, findMatchingCalendarEvent m events = some e →
      50 ≤ eventScore m (extractMeetingBaseName m.name) e ∧ e ∈ events) := by
  refine ⟨findMatchingCalendarEvent_eq_find m events, ?_, ?_⟩
  · rw [findMatchingCalendarEvent_eq_find m events, List.find?_eq_none]
    constructor
    · intro h e he
      have := h e he
      simpa [not_le] using this
    · intro h e he
      simpa [not_le] using h e he
  · intro e he
    rw [findMatchingCalendarEvent_eq_find m events] at he
    exact ⟨by simpa using List.find?_some he, List.mem_of_find?_eq_some he⟩

/-- The C2 counterexample's meeting: its file name cleans up to
"Weekly Sync" and it carries the code `abc-defg-hij`. -/
def c2Meeting : Meeting :=
  { id := "m1", name := "Weekly Sync.txt", createdTime := 0, modifiedTime := none,
    size := none, meetingCode := some "abc-defg-hij" }

/-- An event with a near-perfect name and time match but no code. -/
def c2Near : CalEvent :=
  { id := "near", summary := some "weekly sync", description := none,
    startDateTime := some 0, conferenceData := none }

/-- An event whose description embeds the meeting's code. -/
def c2Code : CalEvent :=
  { id := "code", summary := none, description := some "join abc-defg-hij",
    startDateTime := none, conferenceData := none }

/-- An event carrying no signal at all (score 0). -/
def c2Weak : CalEvent :=
  { id := "weak", summary := none, description := none,
    startDateTime := none, conferenceData := none }

/-- Concrete component scores for the C2 events. -/
lemma c2_eventScore_near :
    eventScore c2Meeting (extractMeetingBaseName c2Meeting.name) c2Near = 130 := by
  have hclean : extractMeetingBaseName c2Meeting.name = "Weekly Sync" := by decide
  have h1 : codeScore c2Meeting c2Near = 0 := by
    unfold codeScore
    rw [if_neg]
    decide
  have h2 : timeScore c2Meeting c2Near = 50 := by
    unfold timeScore
    show (let hoursDiff : ℚ := (((0 : Int) - c2Meeting.createdTime).natAbs : ℚ) / 3600000;
      if hoursDiff ≤ 6 then max 0 (50 - hoursDiff * 5) else 0) = 50
    norm_num [c2Meeting]
  have h3 : nameScore "Weekly Sync" c2Near = 80 := by
    unfold nameScore
    rw [if_pos (by decide), if_pos (by decide)]
  have h4 : linkScore c2Near = 0 := by
    unfold linkScore
    rw [if_neg]
    decide
  rw [eventScore, hclean, h1, h2, h3, h4]
  norm_num

lemma c2_eventScore_code :
    eventScore c2Meeting (extractMeetingBaseName c2Meeting.name) c2Code = 100 := by
  have h1 : codeScore c2Meeting c2Code = 100 :=
    @codeScore_of_match c2Meeting c2Code "abc-defg-hij" "join abc-defg-hij" rfl
      (by decide) rfl (by decide)
  have h2 : timeScore c2Meeting c2Code = 0 := rfl
  have h3 : nameScore (extractMeetingBaseName c2Meeting.name) c2Code = 0 := by
    unfold nameScore
    rw [if_neg]
    decide
  have h4 : linkScore c2Code = 0 := by
    unfold linkScore
    rw [if_neg]
    decide
  rw [eventScore, h1, h2, h3, h4]
  norm_num

/-- C2 counterexample.  The claim fails as stated: with the code-matched event
listed after a near-perfect name+time candidate, the correlator returns the
earlier candidate (first score ≥ 50 wins), not the code-matched one —
even though the meeting's code occurs in the latter's description. -/
theorem correlator_code_dominance_cex :
    optTruthy c2Meeting.meetingCode = true ∧
    jsIncludes (c2Code.description.getD "") (c2Meeting.meetingCode.getD "") = true ∧
    c2Code ∈ [c2Near, c2Code] ∧
    findMatchingCalendarEvent c2Meeting [c2Near, c2Code] ≠ some c2Code ∧
    findMatchingCalendarEvent c2Meeting [c2Near, c2Code] = some c2Near := by
  have hfind : findMatchingCalendarEvent c2Meeting [c2Near, c2Code] = some c2Near := by
    rw [findMatchingCalendarEvent_eq_find, List.find?_cons_of_pos]
    simp only [c2_eventScore_near, decide_eq_true_eq]
    norm_num
  refine ⟨by decide, by decide, by decide, ?_, hfind⟩
  rw [hfind]
  intro h
  have : c2Near = c2Code := by injection h
  exact absurd this (by decide)

/-- C2 as amended: the code-matched event is returned provided no candidate
preceding it in the list reaches the selection threshold of 50; the code
match alone lifts its own score to at least 100, so its own time and name
signals are irrelevant. -/
theorem correlator_code_dominance_amended
    (m : Meeting) (pre post : List CalEvent) (e : CalEvent) (c d : String)
    (hcode : m.meetingCode = some c) (hc : c ≠ "")
    (hdesc : e.description = some d) (hinc : jsIncludes d c = true)
    (hpre : ∀ e' ∈ pre, eventScore m (extractMeetingBaseName m.name) e' < 50) :
    findMatchingCalendarEvent m (pre ++ e :: post) = some e := by
  rw [findMatchingCalendarEvent_eq_find, List.find?_append]
  have hnone : pre.find?
      (fun e' => decide (50 ≤ eventScore m (extractMeetingBaseName m.name) e')) = none := by
    rw [List.find?_eq_none]
    intro e' he'
    simpa [not_le] using hpre e' he'
  rw [hnone, Option.none_or, List.find?_cons_of_pos]
  simpa using fifty_le_eventScore_of_code hcode hc hdesc hinc

/-- C2 witness: with the zero-signal event first, the code-matched event is
selected. -/
theorem correlator_code_dominance_witness :
    findMatchingCalendarEvent c2Meeting [c2Weak, c2Code] = some c2Code :=
  correlator_code_dominance_amended c2Meeting [c2Weak] [] c2Code
    "abc-defg-hij" "join abc-defg-hij" rfl (by decide) rfl (by decide)
    (by
      intro e' he'
      have h : e' = c2Weak := by simpa using he'
      subst h
      have h1 : codeScore c2Meeting c2Weak = 0 := rfl
      have h2 : timeScore c2Meeting c2Weak = 0 := rfl
      have h3 : nameScore (extractMeetingBaseName c2Meeting.name) c2Weak = 0 := rfl
      have h4 : linkScore c2Weak = 0 := by
        unfold linkScore
        rw [if_neg]
        decide
      rw [eventScore, h1, h2, h3, h4]
      norm_num)


/-! ## Trim and separator facts, and the Name Normalizer claim -/

lemma jsTrimL_eq_rdrop (l : List Char) :
    jsTrimL l = List.rdropWhile jsSpace (List.dropWhile jsSpace l) := rfl

lemma mem_of_mem_jsTrimL {c : Char} {l : List Char} (h : c ∈ jsTrimL l) : c ∈ l := by
  rw [jsTrimL_eq_rdrop] at h
  exact (List.dropWhile_suffix jsSpace).sublist.subset
    ((List.rdropWhile_prefix jsSpace _).sublist.subset h)

/-- `trim` is idempotent: trimming starts and ends at non-space characters. -/
lemma jsTrimL_idem (l : List Char) : jsTrimL (jsTrimL l) = jsTrimL l := by
  rw [jsTrimL_eq_rdrop, jsTrimL_eq_rdrop]
  have h1 : List.dropWhile jsSpace (List.rdropWhile jsSpace (List.dropWhile jsSpace l)) =
      List.rdropWhile jsSpace (List.dropWhile jsSpace l) := by
    rw [List.dropWhile_eq_self_iff]
    intro hl
    have hpre := List.rdropWhile_prefix jsSpace (List.dropWhile jsSpace l)
    have hlen : 0 < (List.dropWhile jsSpace l).length :=
      lt_of_lt_of_le hl hpre.length_le
    have hget : (List.rdropWhile jsSpace (List.dropWhile jsSpace l)).get ⟨0, hl⟩ =
        (List.dropWhile jsSpace l).get ⟨0, hlen⟩ := by
      simpa [List.get_eq_getElem] using hpre.getElem hl
    rw [hget]
    exact List.dropWhile_get_zero_not jsSpace l hlen
  rw [h1, List.rdropWhile_idempotent]

lemma mem_dashToSpace {x : Char} {l : List Char} (h : x ∈ dashToSpace l) :
    ¬(x == '-' || x == '_') = true := by
  unfold dashToSpace at h
  obtain ⟨a, _, ha⟩ := List.mem_map.mp h
  by_cases hc : (a == '-' || a == '_') = true
  · rw [if_pos hc] at ha
    subst ha
    decide
  · rw [if_neg hc] at ha
    subst ha
    exact hc

lemma dashToSpace_eq_self {l : List Char} (h : ∀ x ∈ l, ¬(x == '-' || x == '_') = true) :
    dashToSpace l = l := by
  unfold dashToSpace
  conv_rhs => rw [← List.map_id l]
  apply List.map_congr_left
  intro x hx
  rw [if_neg (h x hx)]
  rfl

lemma stripExtG_of_none {l : List Char} (h : extSuffixG l = none) : stripExtG l = l := by
  unfold stripExtG
  rw [h]

lemma stripHeadG_of_none {l : List Char} (h : headKwG l = none) : stripHeadG l = l := by
  unfold stripHeadG
  rw [h]

/-- C3 counterexample.  The Name Normalizer is not idempotent: both cited
normalizers strip only one extension suffix per pass, so a doubled extension
survives the first pass and is stripped again by the second. -/
theorem normalizer_idempotent_cex :
    generateMeetingName (generateMeetingName "a.txt.txt") ≠ generateMeetingName "a.txt.txt" ∧
    extractMeetingBaseName (extractMeetingBaseName "a.txt.txt") ≠
      extractMeetingBaseName "a.txt.txt" := by
  decide

/-- C3 as amended: `generateMeetingName` is idempotent on every input whose
normalized output retains no strippable extension suffix and no leading
boilerplate keyword (the two single-pass rewrite steps; this also excludes
the fallback name, which begins with the keyword "Google Meet").  The
remaining steps — hyphen replacement and trimming — are idempotent
unconditionally. -/
theorem normalizer_idempotent_amended (s : String)
    (hext : extSuffixG (generateMeetingName s).data = none)
    (hkw : headKwG (generateMeetingName s).data = none) :
    generateMeetingName (generateMeetingName s) = generateMeetingName s := by
  by_cases hnil : jsTrimL (dashToSpace (stripHeadG (stripExtG s.data))) = []
  · have hy : generateMeetingName s = "Google Meet 会議" := by
      unfold generateMeetingName
      rw [if_pos hnil]
    rw [hy] at hkw
    exact absurd hkw (by decide)
  · have hy : generateMeetingName s =
        String.mk (jsTrimL (dashToSpace (stripHeadG (stripExtG s.data)))) := by
      unfold generateMeetingName
      rw [if_neg hnil]
    have hdata : (generateMeetingName s).data =
        jsTrimL (dashToSpace (stripHeadG (stripExtG s.data))) := by
      rw [hy]
    rw [hdata] at hext hkw
    have h1 : stripExtG (jsTrimL (dashToSpace (stripHeadG (stripExtG s.data)))) =
        jsTrimL (dashToSpace (stripHeadG (stripExtG s.data))) :=
      stripExtG_of_none hext
    have h2 : stripHeadG (jsTrimL (dashToSpace (stripHeadG (stripExtG s.data)))) =
        jsTrimL (dashToSpace (stripHeadG (stripExtG s.data))) :=
      stripHeadG_of_none hkw
    have h3 : dashToSpace (jsTrimL (dashToSpace (stripHeadG (stripExtG s.data)))) =
        jsTrimL (dashToSpace (stripHeadG (stripExtG s.data))) :=
      dashToSpace_eq_self (fun x hx => mem_dashToSpace (mem_of_mem_jsTrimL hx))
    show (let cleanName :=
        jsTrimL (dashToSpace (stripHeadG (stripExtG (generateMeetingName s).data)));
      if cleanName = [] then "Google Meet 会議" else String.mk cleanName) =
      generateMeetingName s
    rw [hdata, h1, h2, h3, jsTrimL_idem]
    show (if jsTrimL (dashToSpace (stripHeadG (stripExtG s.data))) = []
        then "Google Meet 会議"
        else String.mk (jsTrimL (dashToSpace (stripHeadG (stripExtG s.data))))) =
      generateMeetingName s
    rw [if_neg hnil, ← hy]

/-- C3 witness: a concrete input whose normal form is stable. -/
theorem normalizer_idempotent_witness :
    extSuffixG (generateMeetingName "Team Sync.mp4").data = none ∧
    headKwG (generateMeetingName "Team Sync.mp4").data = none ∧
    generateMeetingName (generateMeetingName "Team Sync.mp4") =
      generateMeetingName "Team Sync.mp4" :=
  ⟨by decide, by decide,
    normalizer_idempotent_amended "Team Sync.mp4" (by decide) (by decide)⟩


/-! ## The Code Extractor claim -/

lemma scanFirst_eq_none_iff (p : List Char → Option (List Char)) :
    ∀ l : List Char, scanFirst p l = none ↔ ∀ s, s <:+ l → p s = none
  | [] => by
    constructor
    · intro h s hs
      rw [List.suffix_nil.mp hs]
      exact h
    · intro h
      exact h [] List.nil_suffix
  | c :: r => by
    cases hp : p (c :: r) with
    | some x =>
      constructor
      · intro h
        simp only [scanFirst, hp] at h
        exact Option.noConfusion h
      · intro h
        exact absurd (h (c :: r) (List.suffix_refl _)) (by simp [hp])
    | none =>
      have hrec := scanFirst_eq_none_iff p r
      constructor
      · intro h s hs
        simp only [scanFirst, hp] at h
        rcases List.suffix_cons_iff.mp hs with h1 | h2
        · rw [h1]
          exact hp
        · exact hrec.mp h s h2
      · intro h
        simp only [scanFirst, hp]
        exact hrec.mpr (fun s hs => h s (hs.trans (List.suffix_cons c r)))

lemma scanFirst_some_ex {p : List Char → Option (List Char)} :
    ∀ {l u : List Char}, scanFirst p l = some u → ∃ s, s <:+ l ∧ p s = some u := by
  intro l
  induction l with
  | nil =>
    intro u h
    exact ⟨[], List.nil_suffix, h⟩
  | cons c r ih =>
    intro u h
    cases hp : p (c :: r) with
    | some x =>
      simp only [scanFirst, hp] at h
      exact ⟨c :: r, List.suffix_refl _, by rw [hp, h]⟩
    | none =>
      simp only [scanFirst, hp] at h
      obtain ⟨s, hs, hps⟩ := ih h
      exact ⟨s, hs.trans (List.suffix_cons c r), hps⟩

lemma shapedCode_length {t : List Char} (h : shapedCode t = true) : t.length = 12 := by
  unfold shapedCode at h
  split at h
  · simp_all
  · simp at h

lemma codeHeadMatch_some_iff {s u : List Char} :
    codeHeadMatch s = some u ↔ shapedCode (s.take 12) = true ∧ u = s.take 12 := by
  unfold codeHeadMatch
  by_cases h : shapedCode (s.take 12) = true
  · rw [if_pos h]
    constructor
    · intro he
      exact ⟨h, (Option.some_injective _ he).symm⟩
    · intro hyp
      rw [hyp.2]
  · rw [if_neg h]
    constructor
    · intro he
      exact absurd he (by simp)
    · intro hyp
      exact absurd hyp.1 h

/-- A shaped token inside the file name makes the first pattern's scan
succeed. -/
lemma codeScan_ne_none {t l : List Char} (ht : shapedCode t = true) (hin : t <:+: l) :
    scanFirst codeHeadMatch l ≠ none := by
  intro hnone
  rw [scanFirst_eq_none_iff] at hnone
  obtain ⟨s, hpre, hsuf⟩ := List.infix_iff_prefix_suffix.mp hin
  have htake : s.take 12 = t := by
    have h1 := List.prefix_iff_eq_take.mp hpre
    rw [shapedCode_length ht] at h1
    exact h1.symm
  have hmatch : codeHeadMatch s = some t :=
    codeHeadMatch_some_iff.mpr ⟨by rw [htake]; exact ht, htake.symm⟩
  rw [hnone s hsuf] at hmatch
  exact absurd hmatch (by simp)

/-- Whatever the first pattern's scan returns is a shaped substring. -/
lemma codeScan_sound {l u : List Char} (h : scanFirst codeHeadMatch l = some u) :
    shapedCode u = true ∧ u <:+: l := by
  obtain ⟨s, hs, hps⟩ := scanFirst_some_ex h
  obtain ⟨hsh, hu⟩ := codeHeadMatch_some_iff.mp hps
  subst hu
  exact ⟨hsh, List.infix_iff_prefix_suffix.mpr ⟨s, List.take_prefix 12 s, hs⟩⟩

/-- C4.  Code Extractor: a file name containing a (unique) three-segment
hyphenated code yields exactly that token; the result is `none` exactly when
none of the three patterns matches at any position; and whenever a shaped
token occurs, the first pattern decides the result (a shaped substring is
returned, never a URL or label capture). -/
theorem code_extractor_contract (fn : String) :
    (∀ t, shapedCode t = true → t <:+: fn.data →
      (∀ t', shapedCode t' = true → t' <:+: fn.data → t' = t) →
      extractMeetingCode fn = some (String.mk t)) ∧
    (extractMeetingCode fn = none ↔
      ∀ s, s <:+ fn.data →
        codeHeadMatch s = none ∧ urlHeadMatch s = none ∧ labelHeadMatch s = none) ∧
    ((∃ t, shapedCode t = true ∧ t <:+: fn.data) →
      ∃ u, extractMeetingCode fn = some (String.mk u) ∧ shapedCode u = true ∧
        u <:+: fn.data) := by
  refine ⟨?_, ?_, ?_⟩
  · intro t ht hin huniq
    cases h1 : scanFirst codeHeadMatch fn.data with
    | none => exact absurd h1 (codeScan_ne_none ht hin)
    | some u =>
      obtain ⟨hsh, hloc⟩ := codeScan_sound h1
      have : u = t := huniq u hsh hloc
      subst this
      unfold extractMeetingCode
      rw [h1]
  · constructor
    · intro h s hs
      unfold extractMeetingCode at h
      cases h1 : scanFirst codeHeadMatch fn.data with
      | some u => rw [h1] at h; exact absurd h (by simp)
      | none =>
        rw [h1] at h
        cases h2 : scanFirst urlHeadMatch fn.data with
        | some u => rw [h2] at h; exact absurd h (by simp)
        | none =>
          rw [h2] at h
          cases h3 : scanFirst labelHeadMatch fn.data with
          | some u => rw [h3] at h; exact absurd h (by simp)
          | none =>
            exact ⟨(scanFirst_eq_none_iff _ _).mp h1 s hs,
              (scanFirst_eq_none_iff _ _).mp h2 s hs,
              (scanFirst_eq_none_iff _ _).mp h3 s hs⟩
    · intro h
      unfold extractMeetingCode
      have h1 : scanFirst codeHeadMatch fn.data = none :=
        (scanFirst_eq_none_iff _ _).mpr (fun s hs => (h s hs).1)
      have h2 : scanFirst urlHeadMatch fn.data = none :=
        (scanFirst_eq_none_iff _ _).mpr (fun s hs => (h s hs).2.1)
      have h3 : scanFirst labelHeadMatch fn.data = none :=
        (scanFirst_eq_none_iff _ _).mpr (fun s hs => (h s hs).2.2)
      rw [h1, h2, h3]
  · rintro ⟨t, ht, hin⟩
    cases h1 : scanFirst codeHeadMatch fn.data with
    | none => exact absurd h1 (codeScan_ne_none ht hin)
    | some u =>
      obtain ⟨hsh, hloc⟩ := codeScan_sound h1
      refine ⟨u, ?_, hsh, hloc⟩
      unfold extractMeetingCode
      rw [h1]


/-! ## Transcript Entry Parser (`parseTranscriptContent`) -/

structure TranscriptEntry where
  text : String
  timestamp : Option String
deriving DecidableEq

/-- The tail `\s*(.+)$` of the timestamp regex: drop leading whitespace
greedily; the remainder is the text when it is nonempty and free of line
terminators; when everything is whitespace, greedy backtracking leaves
exactly the last character to `.+`. -/
def tailTextMatch (r : List Char) : Option (List Char) :=
  let t := r.dropWhile jsSpace
  if t ≠ [] then
    if t.all (fun c => !isLineTerm c) then some t else none
  else
    match r.reverse with
    | [] => none
    | c :: _ => if isLineTerm c then none else some [c]

/-- `\]?\s*(.+)$`: prefer consuming a closing bracket, fall back to leaving
it to `.+`. -/
def tsFinish (ts rest : List Char) : Option (List Char × List Char) :=
  match rest with
  | ']' :: r =>
    (match tailTextMatch r with
     | some tx => some (ts, tx)
     | none => (tailTextMatch (']' :: r)).map (fun tx => (ts, tx)))
  | _ => (tailTextMatch rest).map (fun tx => (ts, tx))

/-- The optional seconds group `(?::\d{2})?`, greedy with fallback. -/
def tsAfterMinutes (ts rest : List Char) : Option (List Char × List Char) :=
  match rest with
  | ':' :: a :: b :: r =>
    if a.isDigit && b.isDigit then
      match tsFinish (ts ++ [':', a, b]) r with
      | some out => some out
      | none => tsFinish ts rest
    else tsFinish ts rest
  | _ => tsFinish ts rest

/-- One-digit-hour continuation of the timestamp group. -/
def tsCoreOne (a : Char) (l2 : List Char) : Option (List Char × List Char) :=
  if a.isDigit then
    match l2 with
    | ':' :: c :: d :: r =>
      if c.isDigit && d.isDigit then tsAfterMinutes [a, ':', c, d] r else none
    | _ => none
  else none

/-- The timestamp group `(\d{1,2}:\d{2}(?::\d{2})?)` with the rest of the
regex, greedy two-digit hour first. -/
def tsCore (l : List Char) : Option (List Char × List Char) :=
  match l with
  | a :: b :: rest1 =>
    if a.isDigit && b.isDigit then
      match rest1 with
      | ':' :: c :: d :: r =>
        if c.isDigit && d.isDigit then
          match tsAfterMinutes [a, b, ':', c, d] r with
          | some out => some out
          | none => tsCoreOne a (b :: rest1)
        else tsCoreOne a (b :: rest1)
      | _ => tsCoreOne a (b :: rest1)
    else tsCoreOne a (b :: rest1)
  | _ => none

/-- The whole line regex `^\[?(\d{1,2}:\d{2}(?::\d{2})?)\]?\s*(.+)$`:
returns (timestamp capture, text capture) on a match. -/
def tsLineMatch (line : List Char) : Option (List Char × List Char) :=
  match line with
  | '[' :: r =>
    (match tsCore r with
     | some out => some out
     | none => tsCore line)
  | _ => tsCore line

/-- The entries one line contributes: a timestamped entry on a regex match,
a plain entry when the (already nonblank) line fails the match. -/
def lineEntries (line : List Char) : List TranscriptEntry :=
  match tsLineMatch line with
  | some (ts, tx) => [{ text := String.mk (jsTrimL tx), timestamp := some (String.mk ts) }]
  | none =>
    if jsTrimL line ≠ [] then [{ text := String.mk (jsTrimL line), timestamp := none }]
    else []

/-- `parseTranscriptContent` of `src/lib/google-meet-api.ts`: empty content
yields no entries; otherwise split on newlines, keep nonblank lines, emit one
entry per kept line. -/
def parseTranscriptContent (content : String) : List TranscriptEntry :=
  if content = "" then []
  else ((content.data.splitOn '\n').filter (fun l => decide (jsTrimL l ≠ []))).flatMap
    lineEntries

/-- The nonblank input lines, in input order. -/
def nonBlankLines (content : String) : List (List Char) :=
  (content.data.splitOn '\n').filter (fun l => decide (jsTrimL l ≠ []))

/-- The single entry a nonblank line denotes. -/
def lineEntry (line : List Char) : TranscriptEntry :=
  match tsLineMatch line with
  | some (ts, tx) => { text := String.mk (jsTrimL tx), timestamp := some (String.mk ts) }
  | none => { text := String.mk (jsTrimL line), timestamp := none }

lemma lineEntries_of_nonblank {line : List Char} (h : jsTrimL line ≠ []) :
    lineEntries line = [lineEntry line] := by
  unfold lineEntries lineEntry
  cases tsLineMatch line with
  | some out => rfl
  | none => rw [if_pos h]

lemma flatMap_lineEntries_eq_map {L : List (List Char)}
    (h : ∀ l ∈ L, jsTrimL l ≠ []) :
    L.flatMap lineEntries = L.map lineEntry := by
  induction L with
  | nil => rfl
  | cons a L ih =>
    rw [List.flatMap_cons, List.map_cons,
      lineEntries_of_nonblank (h a (List.mem_cons_self a L)),
      ih (fun l hl => h l (List.mem_cons_of_mem a hl))]
    rfl

/-- C5.  Transcript Entry Parser: exactly one entry per nonblank input line,
in input order — the parse is the map of the per-line entry over the nonblank
lines — and on `"[10:15] Hello there\nNo timestamp line\n"` it produces
exactly the two expected entries. -/
theorem transcript_parser_contract (content : String) :
    parseTranscriptContent content = (nonBlankLines content).map lineEntry ∧
    (parseTranscriptContent content).length = (nonBlankLines content).length ∧
    parseTranscriptContent "[10:15] Hello there\nNo timestamp line\n" =
      [{ text := "Hello there", timestamp := some "10:15" },
       { text := "No timestamp line", timestamp := none }] := by
  have hmain : parseTranscriptContent content = (nonBlankLines content).map lineEntry := by
    unfold parseTranscriptContent nonBlankLines
    by_cases hc : content = ""
    · subst hc
      rw [if_pos rfl]
      rfl
    · rw [if_neg hc]
      exact flatMap_lineEntries_eq_map
        (fun l hl => by simpa using List.of_mem_filter hl)
  refine ⟨hmain, by rw [hmain, List.length_map], by decide⟩


/-! ## Drive file snapshots, transcript search pipeline, ranker, fetcher -/

/-- A Drive file metadata record (the fields the transcript pipeline reads;
timestamps as parsed epoch milliseconds). -/
structure DriveFile where
  id : Option String
  name : Option String
  createdTime : Option Int
  modifiedTime : Option Int
  size : Option Int
  webViewLink : Option String
  mimeType : Option String
  parents : Option (List String)
deriving DecidableEq

/-- The `Transcript` record the pipeline returns. -/
structure TranscriptRec where
  id : String
  name : String
  createdTime : Option Int
  modifiedTime : Option Int
  size : Int
  webViewLink : Option String
  downloadLink : String
  content : Option String
deriving DecidableEq

/-- The record assembly at the end of `getAllTranscripts`'s loop
(defaults `|| ""`, `parseInt(file.size || "0")`, template-string download
link). -/
def mkTranscriptRec (f : DriveFile) (content : Option String) : TranscriptRec :=
  { id := f.id.getD "", name := f.name.getD "",
    createdTime := f.createdTime, modifiedTime := f.modifiedTime,
    size := f.size.getD 0, webViewLink := f.webViewLink,
    downloadLink := "https://drive.google.com/uc?id=" ++ f.id.getD "undefined",
    content := content }

/-- The deduplication of `getAllTranscripts`:
`allFiles.filter((file, index, self) => self.findIndex(f => f.id === file.id) === index)`. -/
def dedupById (l : List DriveFile) : List DriveFile :=
  (l.enum.filter (fun p => l.findIdx (fun f => f.id == p.2.id) == p.1)).map Prod.snd

/-- The sort key: distance of a file's creation time (0 when absent) from the
meeting's creation time. -/
def transcriptDist (meetingTime : Int) (f : DriveFile) : Nat :=
  (f.createdTime.getD 0 - meetingTime).natAbs

/-- Stable ascending insertion by distance: an element is placed before the
first strictly farther element, which is the unique stable order of the
JavaScript comparator `|aTime - meetingTime| - |bTime - meetingTime|`. -/
def insertByDist (mt : Int) (x : DriveFile) : List DriveFile → List DriveFile
  | [] => [x]
  | y :: ys =>
    if transcriptDist mt x ≤ transcriptDist mt y then x :: y :: ys
    else y :: insertByDist mt x ys

def sortByDist (mt : Int) : List DriveFile → List DriveFile
  | [] => []
  | x :: xs => insertByDist mt x (sortByDist mt xs)

/-- The tail of `getAllTranscripts` after the four search strategies have
produced `allFiles`: deduplicate by id, sort by closeness to the meeting's
creation time when known, cap at ten records, and fetch content only for the
first record (Docs-export or direct download abstracted into `fetch`;
a fetch error leaves the content absent). -/
def transcriptRows (fetch : DriveFile → Except String String)
    (sorted : List DriveFile) : List TranscriptRec :=
  (sorted.take 10).enum.map (fun p =>
    let content : Option String :=
      if p.1 == 0 && optTruthy p.2.id then
        match fetch p.2 with
        | .ok c => some c
        | .error _ => none
      else none
    mkTranscriptRec p.2 content)

def getAllTranscriptsAssemble (fetch : DriveFile → Except String String)
    (meetingFile : Option DriveFile) (allFiles : List DriveFile) : List TranscriptRec :=
  let uniqueFiles := dedupById allFiles
  let sorted :=
    match meetingFile with
    | some mf =>
      match mf.createdTime with
      | some mt => sortByDist mt uniqueFiles
      | none => uniqueFiles
    | none => uniqueFiles
  transcriptRows fetch sorted

/-- Local calendar day of an epoch-milliseconds instant (the
`toDateString()` comparison): floor division after shifting by the zone
offset. -/
def localDay (tzOffset t : Int) : Int :=
  (t + tzOffset).fdiv 86400000

/-- `calculateRelevanceScore` of the README engine: keyword, MIME-type,
recency and anchor-relatedness bonuses, additively. -/
def calculateRelevanceScore (now tzOffset : Int) (file : DriveFile)
    (meetingFile : Option DriveFile) : ℚ :=
  let fileName := lowerStr (file.name.getD "")
  (if jsIncludes fileName "transcript" then 10 else 0) +
  (if jsIncludes fileName "文字起こし" then 10 else 0) +
  (if jsIncludes fileName "meeting" then 5 else 0) +
  (if file.mimeType == some "application/vnd.google-apps.document" then 3 else 0) +
  (if file.mimeType == some "text/plain" then 2 else 0) +
  (match file.createdTime with
   | some t =>
     let daysSinceCreation : ℚ := ((now - t : Int) : ℚ) / 86400000
     max 0 (10 - daysSinceCreation)
   | none => 0) +
  (match meetingFile with
   | some mf =>
     (match file.parents, mf.parents with
      | some ps, some mps => if ps.any (fun par => mps.contains par) then 15 else 0
      | _, _ => 0) +
     (if optTruthy mf.name then
        (let meetingBaseName := extractBaseName (mf.name.getD "")
         if meetingBaseName != "" && jsIncludes fileName (lowerStr meetingBaseName) then 8
         else 0)
      else 0) +
     (match file.createdTime, mf.createdTime with
      | some a, some b => if localDay tzOffset a = localDay tzOffset b then 5 else 0
      | _, _ => 0)
   | none => 0)

/-- Stable descending insertion by score (the unique stable order of
`sort((a, b) => b.score - a.score)`). -/
def insertByScore (x : DriveFile × ℚ) : List (DriveFile × ℚ) → List (DriveFile × ℚ)
  | [] => [x]
  | y :: ys => if y.2 ≤ x.2 then x :: y :: ys else y :: insertByScore x ys

def sortByScoreDesc : List (DriveFile × ℚ) → List (DriveFile × ℚ)
  | [] => []
  | x :: xs => insertByScore x (sortByScoreDesc xs)

/-- `selectBestTranscriptFile` of the README engine: empty pool short-circuits
to `null`; otherwise score every file, sort descending, take the head. -/
def selectBestTranscriptFile (now tzOffset : Int) (files : List DriveFile)
    (meetingFile : Option DriveFile) : Option DriveFile :=
  if files.length = 0 then none
  else
    let scoredFiles :=
      files.map (fun file => (file, calculateRelevanceScore now tzOffset file meetingFile))
    match sortByScoreDesc scoredFiles with
    | [] => none
    | best :: _ => some best.1

/-- `fetchFileContent` of the README engine: Docs are exported, other files
downloaded directly; any thrown error is swallowed into the empty string. -/
def fetchFileContent (fetchExport fetchMedia : DriveFile → Except String String)
    (file : DriveFile) : String :=
  match (if file.mimeType == some "application/vnd.google-apps.document"
         then fetchExport file
         else fetchMedia file) with
  | .ok content => content
  | .error _ => ""

/-- The record `getTranscript` (README engine) returns for the selected file:
metadata plus the (possibly empty) fetched content. -/
def getTranscriptResult (fetchExport fetchMedia : DriveFile → Except String String)
    (bestFile : DriveFile) : TranscriptRec :=
  { id := bestFile.id.getD "", name := bestFile.name.getD "",
    createdTime := bestFile.createdTime, modifiedTime := bestFile.modifiedTime,
    size := bestFile.size.getD 0, webViewLink := bestFile.webViewLink,
    downloadLink := "https://drive.google.com/uc?id=" ++ bestFile.id.getD "undefined",
    content := some (fetchFileContent fetchExport fetchMedia bestFile) }


/-! ## Ranker and fetcher claims -/

/-- C6.  Transcript Candidate Ranker on the empty pool: whatever the clock,
time zone and anchor, the empty candidate list yields `none` — the function
is total, so no error can be raised. -/
theorem ranker_empty_pool_none (now tzOffset : Int) (meetingFile : Option DriveFile) :
    selectBestTranscriptFile now tzOffset [] meetingFile = none := rfl

/-- C7.  Transcript Content Fetcher fails soft: when the underlying retrieval
(the export path for Docs, the direct path otherwise) raises, the fetch
returns the empty string, and the surrounding `getTranscript` result still
carries the selected file's metadata with empty content. -/
theorem fetcher_fails_soft (fetchExport fetchMedia : DriveFile → Except String String)
    (f : DriveFile) (err : String)
    (h : (if f.mimeType == some "application/vnd.google-apps.document"
          then fetchExport f
          else fetchMedia f) = .error err) :
    fetchFileContent fetchExport fetchMedia f = "" ∧
    (getTranscriptResult fetchExport fetchMedia f).content = some "" ∧
    (getTranscriptResult fetchExport fetchMedia f).id = f.id.getD "" ∧
    (getTranscriptResult fetchExport fetchMedia f).name = f.name.getD "" ∧
    (getTranscriptResult fetchExport fetchMedia f).createdTime = f.createdTime := by
  have hc : fetchFileContent fetchExport fetchMedia f = "" := by
    unfold fetchFileContent
    rw [h]
  refine ⟨hc, ?_, rfl, rfl, rfl⟩
  show some (fetchFileContent fetchExport fetchMedia f) = some ""
  rw [hc]

/-- The C7 witness file: a Docs-typed transcript candidate. -/
def c7File : DriveFile :=
  { id := some "doc1", name := some "transcript 2025", createdTime := some 0,
    modifiedTime := none, size := some 5, webViewLink := none,
    mimeType := some "application/vnd.google-apps.document", parents := none }

/-- C7 witness: a failing export on a concrete Docs file yields empty content
and intact metadata. -/
theorem fetcher_fails_soft_witness :
    fetchFileContent (fun _ => .error "network") (fun _ => .ok "text") c7File = "" ∧
    (getTranscriptResult (fun _ => .error "network") (fun _ => .ok "text") c7File).content =
      some "" ∧
    (getTranscriptResult (fun _ => .error "network") (fun _ => .ok "text") c7File).id =
      c7File.id.getD "" ∧
    (getTranscriptResult (fun _ => .error "network") (fun _ => .ok "text") c7File).name =
      c7File.name.getD "" ∧
    (getTranscriptResult (fun _ => .error "network") (fun _ => .ok "text") c7File).createdTime =
      c7File.createdTime :=
  fetcher_fails_soft (fun _ => .error "network") (fun _ => .ok "text") c7File "network" rfl


/-! ## The deduplication claim -/

lemma mem_dedupById_iff {l : List DriveFile} {b : DriveFile} :
    b ∈ dedupById l ↔ ∃ i, l.get? i = some b ∧ l.findIdx (fun f => f.id == b.id) = i := by
  unfold dedupById
  constructor
  · intro h
    obtain ⟨⟨i, x⟩, hp, hpb⟩ := List.mem_map.mp h
    obtain ⟨hpe, hq⟩ := List.mem_filter.mp hp
    dsimp at hpb
    subst hpb
    refine ⟨i, List.mem_enum_iff_get?.mp hpe, by simpa using hq⟩
  · rintro ⟨i, hget, hfind⟩
    exact List.mem_map.mpr ⟨(i, b),
      List.mem_filter.mpr ⟨List.mem_enum_iff_get?.mpr hget, by simpa using hfind⟩, rfl⟩

lemma pairwise_fst_lt_enumFrom (l : List DriveFile) :
    ∀ n : Nat, (l.enumFrom n).Pairwise (fun p q => p.1 < q.1) := by
  induction l with
  | nil => intro n; simp
  | cons a t ih =>
    intro n
    rw [List.enumFrom_cons]
    refine List.Pairwise.cons ?_ (ih (n + 1))
    rintro ⟨i, x⟩ hp
    have := (List.mem_enumFrom hp).1
    dsimp
    omega

lemma dedup_pairwise (l : List DriveFile) :
    (dedupById l).Pairwise (fun a b => a.id ≠ b.id) := by
  unfold dedupById
  rw [List.pairwise_map]
  have h1 : (l.enum.filter (fun p => l.findIdx (fun f => f.id == p.2.id) == p.1)).Pairwise
      (fun p q => p.1 < q.1) :=
    List.Pairwise.sublist (List.filter_sublist _) (pairwise_fst_lt_enumFrom l 0)
  refine h1.imp_of_mem ?_
  intro p q hp hq hlt
  have hqp : l.findIdx (fun f => f.id == p.2.id) = p.1 := by
    simpa using List.of_mem_filter hp
  have hqq : l.findIdx (fun f => f.id == q.2.id) = q.1 := by
    simpa using List.of_mem_filter hq
  intro hid
  have hfun : (fun f : DriveFile => f.id == p.2.id) = (fun f => f.id == q.2.id) := by
    funext f
    rw [hid]
  rw [hfun] at hqp
  omega

lemma dedup_sublist (l : List DriveFile) : (dedupById l).Sublist l := by
  unfold dedupById
  have h1 := (@List.filter_sublist _
    (fun p => l.findIdx (fun f => f.id == p.2.id) == p.1) l.enum).map Prod.snd
  rwa [List.enum_map_snd] at h1

/-- C8.  Deduplication by identifier in `getAllTranscripts`: the surviving
records form a subsequence of the input (relative order of first occurrences
preserved), carry pairwise distinct identifiers, cover every input
identifier, and each survivor is literally the first input record bearing its
identifier (all fields intact).  The pipeline applies this before the
closeness sort and the cap (see `getAllTranscriptsAssemble`). -/
theorem dedup_first_seen (l : List DriveFile) :
    (dedupById l).Sublist l ∧
    (dedupById l).Pairwise (fun a b => a.id ≠ b.id) ∧
    (∀ a ∈ l, ∃ b ∈ dedupById l, b.id = a.id) ∧
    (∀ b ∈ dedupById l, ∃ i : Fin l.length, l.get i = b ∧
      ∀ j : Fin l.length, (j : Nat) < (i : Nat) → (l.get j).id ≠ b.id) := by
  refine ⟨dedup_sublist l, dedup_pairwise l, ?_, ?_⟩
  · intro a ha
    have hex : ∃ x ∈ l, (x.id == a.id) = true := ⟨a, ha, by simp⟩
    have hlt : l.findIdx (fun f => f.id == a.id) < l.length :=
      List.findIdx_lt_length_of_exists hex
    set i := l.findIdx (fun f => f.id == a.id) with hi
    refine ⟨l.get ⟨i, hlt⟩, ?_, ?_⟩
    · apply mem_dedupById_iff.mpr
      refine ⟨i, List.get?_eq_get hlt, ?_⟩
      have hbid : (l.get ⟨i, hlt⟩).id = a.id := by
        have := @List.findIdx_get _ _ l hlt
        exact beq_iff_eq.mp this
      have hfun : (fun f : DriveFile => f.id == (l.get ⟨i, hlt⟩).id) =
          (fun f => f.id == a.id) := by
        funext f
        rw [hbid]
      rw [hfun]
    · have := @List.findIdx_get _ _ l hlt
      exact beq_iff_eq.mp this
  · intro b hb
    obtain ⟨i, hget, hfind⟩ := mem_dedupById_iff.mp hb
    obtain ⟨hlt, hgeti⟩ := List.get?_eq_some.mp hget
    refine ⟨⟨i, hlt⟩, hgeti, ?_⟩
    rintro ⟨j, hj⟩ hji
    have hjlt : j < l.findIdx (fun f => f.id == b.id) := by
      rw [hfind]
      exact hji
    have hfalse := List.not_of_lt_findIdx hjlt
    intro hid
    rw [List.get_eq_getElem] at hid
    simp [hid] at hfalse



/-! ## Enrichment filter and result-cap claims -/

/-- C9.  Implicit Meet-link candidate filter: enrichment matches only within
`events.filter hasGoogleMeetLink`, so an attached event always has a
detectable Google Meet link (and therefore carries the +10 link bonus in the
score), and is one of the calendar snapshot's events — a meeting is never
attached to a link-less event, code match or not. -/
theorem enrichment_meet_link_filter (meetings : List Meeting) (events : List CalEvent)
    (p : Meeting × Option CalEvent) (e : CalEvent)
    (hp : p ∈ enrichMeetingsWithCalendarData meetings events)
    (he : p.2 = some e) :
    hasGoogleMeetLink e = true ∧ e ∈ events ∧ linkScore e = 10 := by
  unfold enrichMeetingsWithCalendarData at hp
  obtain ⟨m, hm, hpm⟩ := List.mem_map.mp hp
  subst hpm
  dsimp at he
  rw [findMatchingCalendarEvent_eq_find] at he
  have hmem := List.mem_of_find?_eq_some he
  rw [List.mem_filter] at hmem
  refine ⟨hmem.2, hmem.1, ?_⟩
  unfold linkScore
  rw [if_pos hmem.2]

/-- The C9 witness meeting and events. -/
def c9m : Meeting :=
  { id := "m9", name := "Design Review.txt", createdTime := 0, modifiedTime := none,
    size := none, meetingCode := some "abc-defg-hij" }

/-- Code match but no Meet link: filtered out before matching. -/
def c9eNoLink : CalEvent :=
  { id := "nolink", summary := none, description := some "code abc-defg-hij",
    startDateTime := none, conferenceData := none }

/-- Code match and a Meet link in the description. -/
def c9eLink : CalEvent :=
  { id := "link", summary := none,
    description := some "abc-defg-hij at meet.google.com/abc-defg-hij",
    startDateTime := none, conferenceData := none }

/-- C9 witness: in a concrete enrichment the attached event has the link, is
one of the snapshot events, and receives the +10 bonus. -/
theorem enrichment_meet_link_filter_witness :
    hasGoogleMeetLink c9eLink = true ∧ c9eLink ∈ [c9eNoLink, c9eLink] ∧
      linkScore c9eLink = 10 := by
  have hfilter : [c9eNoLink, c9eLink].filter (fun e => hasGoogleMeetLink e) = [c9eLink] := by
    decide
  have hsel : findMatchingCalendarEvent c9m [c9eLink] = some c9eLink := by
    rw [findMatchingCalendarEvent_eq_find, List.find?_cons_of_pos]
    simpa using @fifty_le_eventScore_of_code c9m c9eLink "abc-defg-hij"
      "abc-defg-hij at meet.google.com/abc-defg-hij" (extractMeetingBaseName c9m.name)
      rfl (by decide) rfl (by decide)
  have hp : (c9m, some c9eLink) ∈ enrichMeetingsWithCalendarData [c9m] [c9eNoLink, c9eLink] := by
    show (c9m, some c9eLink) ∈
      [c9m].map (fun m => (m, findMatchingCalendarEvent m
        ([c9eNoLink, c9eLink].filter (fun e => hasGoogleMeetLink e))))
    rw [hfilter, List.map_cons, List.map_nil, hsel]
    exact List.mem_singleton.mpr rfl
  exact enrichment_meet_link_filter [c9m] [c9eNoLink, c9eLink] (c9m, some c9eLink) c9eLink
    hp rfl

/-- The row builder never emits more than ten records. -/
lemma transcriptRows_cap (fetch : DriveFile → Except String String)
    (sorted : List DriveFile) : (transcriptRows fetch sorted).length ≤ 10 := by
  unfold transcriptRows
  rw [List.length_map, List.enum_length, List.length_take]
  exact min_le_left 10 _

lemma transcriptRows_content_none (fetch : DriveFile → Except String String)
    (sorted : List DriveFile) (i : Nat)
    (hi : i < (transcriptRows fetch sorted).length) (hpos : 0 < i) :
    ((transcriptRows fetch sorted).get ⟨i, hi⟩).content = none := by
  unfold transcriptRows at hi ⊢
  rw [List.get_eq_getElem, List.getElem_map, List.getElem_enum]
  have hne : (i == 0) = false := by
    simp only [beq_eq_false_iff_ne, ne_eq]
    omega
  have hi2 : i < (sorted.take 10).length := by
    rw [List.length_map, List.enum_length] at hi
    exact hi
  show (mkTranscriptRec _
    (if (i == 0) && optTruthy ((sorted.take 10).get ⟨i, hi2⟩).id then _
     else none)).content = none
  rw [hne, Bool.false_and, if_neg (by simp)]
  rfl

/-- The sorted candidate list `getAllTranscriptsAssemble` feeds its row
builder. -/
def sortedCandidates (meetingFile : Option DriveFile) (allFiles : List DriveFile) :
    List DriveFile :=
  match meetingFile with
  | some mf =>
    match mf.createdTime with
    | some mt => sortByDist mt (dedupById allFiles)
    | none => dedupById allFiles
  | none => dedupById allFiles

lemma getAllTranscriptsAssemble_eq (fetch : DriveFile → Except String String)
    (meetingFile : Option DriveFile) (allFiles : List DriveFile) :
    getAllTranscriptsAssemble fetch meetingFile allFiles =
      transcriptRows fetch (sortedCandidates meetingFile allFiles) := rfl

/-- C10.  `getAllTranscripts` returns at most ten records, and only the first
record can carry fetched content: every record at a positive index has an
absent content field. -/
theorem transcripts_cap_and_single_fetch (fetch : DriveFile → Except String String)
    (meetingFile : Option DriveFile) (allFiles : List DriveFile) :
    (getAllTranscriptsAssemble fetch meetingFile allFiles).length ≤ 10 ∧
    ∀ i, ∀ hi : i < (getAllTranscriptsAssemble fetch meetingFile allFiles).length,
      0 < i →
      ((getAllTranscriptsAssemble fetch meetingFile allFiles).get ⟨i, hi⟩).content = none := by
  rw [getAllTranscriptsAssemble_eq]
  exact ⟨transcriptRows_cap fetch _,
    fun i hi hpos => transcriptRows_content_none fetch _ i hi hpos⟩
end MeetApi
